import Mathlib

/-!
Verification of the path-addressed JSON accessor/mutator in
`src/features/modals/NodeModal/index.tsx`.

The component's core logic is shallowly embedded here:

* `JValue` models a parsed JSON document (the result of `JSON.parse`);
  numbers are modelled as integers (no claim depends on float behaviour).
* `jsGetStep` models one step of the JavaScript property access
  `current = current[path[i]]` performed by `getFullNodeValue` and
  `updateJsonAtPath`.  JavaScript dynamics are modelled faithfully for
  own data properties: property keys are coerced to strings, arrays
  accept canonical numeric-string keys, strings are indexable and have a
  `length` property, access on `null`/`undefined` throws, and access of
  an absent key yields `undefined` (modelled as `none`).  Prototype-chain
  members (inherited functions such as `toString` or `charAt`, and the
  `__proto__` accessor) are outside the model, as are float-valued
  lengths: an inherited read never yields a JSON value, so a navigation
  step agrees with the engine exactly when it yields an actual value,
  and every theorem's walk hypotheses keep the quantified executions
  inside that fragment.
* `jsAssign` models the assignment `current[lastKey] = newValue` under
  module (strict-mode) semantics: assigning onto a primitive or
  `null`/`undefined` throws, object assignment is insert-or-overwrite
  preserving key order, array index assignment extends with holes that
  `JSON.stringify` serialises as `null`, and a non-index string key on an
  array is accepted but invisible to serialisation.
* The component's in-place mutation followed by `JSON.stringify(json)`
  is translated functionally: `setPath` rebuilds the document along the
  path, which agrees with mutation because parsed JSON is a tree.
-/

/-- A parsed JSON value, as produced by `JSON.parse`.  Objects are
ordered key/value lists (JavaScript preserves insertion order); numeric
values are modelled as integers. -/
inductive JValue where
  | null : JValue
  | bool : Bool → JValue
  | num : Int → JValue
  | str : String → JValue
  | arr : List JValue → JValue
  | obj : List (String × JValue) → JValue

/-- A path segment from `NodeData["path"]`: an object key (string) or an
array index (number).  Indices produced by the graph are natural
numbers. -/
inductive Seg where
  | key : String → Seg
  | idx : Nat → Seg
deriving DecidableEq

/-- Decimal digit characters. -/
def dchar : Nat → Char
  | 0 => '0'
  | 1 => '1'
  | 2 => '2'
  | 3 => '3'
  | 4 => '4'
  | 5 => '5'
  | 6 => '6'
  | 7 => '7'
  | 8 => '8'
  | _ => '9'

/-- Numeric value of a digit character. -/
def dval (c : Char) : Nat := c.toNat - 48

/-- Whether a character is a decimal digit. -/
def isDigitChar (c : Char) : Bool := 48 ≤ c.toNat && c.toNat ≤ 57

/-- Digit accumulation with an explicit recursion bound; the bound is
never exhausted when it is at least the input (a number has no more
digits than its own value). -/
def natDigitsAux : Nat → Nat → List Char → List Char
  | 0, n, acc => dchar n :: acc
  | fuel + 1, n, acc =>
    if n < 10 then dchar n :: acc else natDigitsAux fuel (n / 10) (dchar (n % 10) :: acc)

/-- Decimal digits of a natural number, most significant first
(the JavaScript `ToString` of a non-negative integer). -/
def natDigits (n : Nat) : List Char := natDigitsAux n n []

/-- Decimal rendering of a natural number. -/
def natRepr (n : Nat) : String := String.mk (natDigits n)

/-- Decimal rendering of an integer (JavaScript `ToString` of an
integral number). -/
def intRepr (n : Int) : String :=
  if n < 0 then ("-") ++ natRepr n.natAbs else natRepr n.toNat

/-- Value of a digit string (most significant digit first). -/
def charsToNat (l : List Char) : Nat := l.foldl (fun a c => 10 * a + dval c) 0

/-- JavaScript canonical array-index coercion of a string property key:
`some n` exactly when the key is the canonical decimal numeral of `n`
(non-empty, all digits, no leading zero except for `"0"` itself). -/
def canonicalNat (s : String) : Option Nat :=
  match s.data with
  | [] => none
  | c :: cs =>
    if (c :: cs).all isDigitChar ∧ (c ≠ '0' ∨ cs = []) then
      some (charsToNat (c :: cs))
    else none

/-- The JavaScript `ToPropertyKey` coercion of a path segment. -/
def segToKey : Seg → String
  | .key k => k
  | .idx n => natRepr n

/-- First-match lookup in an object's field list (JavaScript own-property
read; parsed JSON never has duplicate keys). -/
def lookupField : List (String × JValue) → String → Option JValue
  | [], _ => none
  | (k', v) :: rest, k => if k' = k then some v else lookupField rest k

/-- JavaScript object assignment `obj[k] = v`: overwrite in place if the
key exists (preserving its position), otherwise append. -/
def setField : List (String × JValue) → String → JValue → List (String × JValue)
  | [], k, v => [(k, v)]
  | (k', v') :: rest, k, v =>
    if k' = k then (k, v) :: rest else (k', v') :: setField rest k v

/-- Removal of a key, modelling assignment of `undefined` to an object
property: the property exists but `JSON.stringify` omits it. -/
def removeField (fs : List (String × JValue)) (k : String) : List (String × JValue) :=
  fs.filter (fun f => !(f.1 == k))

/-- JavaScript array element write `arr[n] = v`: overwrite in range,
otherwise extend; the skipped holes are serialised as `null` by
`JSON.stringify`. -/
def arrSet (l : List JValue) (n : Nat) (v : JValue) : List JValue :=
  if n < l.length then l.set n v else l ++ List.replicate (n - l.length) JValue.null ++ [v]

/-- JavaScript `arr.length = k`: truncate or extend (new holes serialise
as `null`). -/
def arrResize (l : List JValue) (k : Nat) : List JValue :=
  l.take k ++ List.replicate (k - l.length) JValue.null

/-- One step `current[seg]` of the navigation loops in
`getFullNodeValue` and `updateJsonAtPath`.  `none` is JavaScript
`undefined`; `Except.error` is a thrown `TypeError` (property access on
`undefined` or `null`).  Own data properties are modelled exactly; an
absent own key is modelled as `undefined`, whereas the real access may
instead surface an inherited prototype member (a host function such as
`charAt` or `push`, or a prototype object via `__proto__`) — never a
JSON value.  A step that yields an actual value (`.ok (some v)`) is
therefore exact, and theorems about failing navigations hypothesise
such steps only. -/
def jsGetStep : Option JValue → Seg → Except Unit (Option JValue)
  | none, _ => .error ()
  | some .null, _ => .error ()
  | some (.bool _), _ => .ok none
  | some (.num _), _ => .ok none
  | some (.str s), .idx n => .ok ((s.data.get? n).map fun c => .str (String.mk [c]))
  | some (.str s), .key k =>
    if k = "length" then .ok (some (.num s.length))
    else .ok ((canonicalNat k).bind fun n => (s.data.get? n).map fun c => .str (String.mk [c]))
  | some (.obj fs), seg => .ok (lookupField fs (segToKey seg))
  | some (.arr l), .idx n => .ok (l.get? n)
  | some (.arr l), .key k =>
    if k = "length" then .ok (some (.num l.length))
    else .ok ((canonicalNat k).bind l.get?)

/-- The navigation loop `for i: current = current[path[i]]`. -/
def walkPath : Option JValue → List Seg → Except Unit (Option JValue)
  | cur, [] => .ok cur
  | cur, s :: rest =>
    match jsGetStep cur s with
    | .error e => .error e
    | .ok c => walkPath c rest

/-- The final assignment `current[lastKey] = newValue` of
`updateJsonAtPath`, under strict-mode (ES module) semantics.  The value
being assigned is `Option JValue` so that assignment of `undefined` is
representable.  The result is the updated `current`. -/
def jsAssign : Option JValue → Seg → Option JValue → Except Unit JValue
  | none, _, _ => .error ()
  | some .null, _, _ => .error ()
  | some (.bool _), _, _ => .error ()
  | some (.num _), _, _ => .error ()
  | some (.str _), _, _ => .error ()
  | some (.obj fs), seg, some v => .ok (.obj (setField fs (segToKey seg) v))
  | some (.obj fs), seg, none => .ok (.obj (removeField fs (segToKey seg)))
  | some (.arr l), .idx n, v => .ok (.arr (arrSet l n (v.getD .null)))
  | some (.arr l), .key k, v =>
    if k = "length" then
      match v with
      | some (.num m) => if 0 ≤ m then .ok (.arr (arrResize l m.toNat)) else .error ()
      | _ => .error ()
    else
      match canonicalNat k with
      | some n => .ok (.arr (arrSet l n (v.getD .null)))
      | none => .ok (.arr l)

/-- Write-back of an in-place child mutation into the parent, used to
translate the component's mutation of `current` into a functional update
of the whole document.  Only element accesses (object fields, in-range
array indices) can carry a successful inner mutation; the other branches
are unreachable because every access chain leaving an object or array
through a computed value (string character, `length`) admits no
successful assignment. -/
def reattach (cur : Option JValue) (s : Seg) (c : JValue) : Except Unit JValue :=
  match cur with
  | some (.obj fs) => .ok (.obj (setField fs (segToKey s) c))
  | some (.arr l) =>
    match s with
    | .idx n => if n < l.length then .ok (.arr (l.set n c)) else .error ()
    | .key k =>
      if k = "length" then .error ()
      else
        match canonicalNat k with
        | some n => if n < l.length then .ok (.arr (l.set n c)) else .error ()
        | none => .error ()
  | _ => .error ()

/-- Functional translation of the mutation phase of `updateJsonAtPath`:
walk all but the last segment, assign at the last, and rebuild the
document along the path (the code mutates the parsed tree in place and
re-serialises the root; on a tree these coincide). -/
def setPath : Option JValue → List Seg → Option JValue → Except Unit JValue
  | _, [], _ => .error ()
  | cur, [last], v => jsAssign cur last v
  | cur, s :: rest, v =>
    match jsGetStep cur s with
    | .error _ => .error ()
    | .ok child =>
      match setPath child rest v with
      | .error _ => .error ()
      | .ok child' => reattach cur s child'

/-- The spec's `PathResolver.resolve` contract, written from the spec's
words for comparison with the code: descend only through an object node
via a present string key or an array node via a valid integer index;
every other combination is `NotFound` (`none`). -/
def specResolve : JValue → List Seg → Option JValue
  | d, [] => some d
  | .obj fs, .key k :: rest =>
    match lookupField fs k with
    | some v => specResolve v rest
    | none => none
  | .arr l, .idx n :: rest =>
    match l.get? n with
    | some v => specResolve v rest
    | none => none
  | _, _ => none

/-- Whether a JavaScript value is a container (object or array). -/
def isContainerO : Option JValue → Bool
  | some (.obj _) => true
  | some (.arr _) => true
  | _ => false

/-- A hexadecimal digit character. -/
def hexDigit : Nat → Char
  | 10 => 'a'
  | 11 => 'b'
  | 12 => 'c'
  | 13 => 'd'
  | 14 => 'e'
  | 15 => 'f'
  | m => dchar m

/-- Escaping of one character inside a JSON string literal, as performed
by `JSON.stringify`. -/
def escapeChar (c : Char) : String :=
  if c = '"' then ("\\\"")
  else if c = '\\' then ("\\\\")
  else if c = '\n' then ("\\n")
  else if c = '\r' then ("\\r")
  else if c = '\t' then ("\\t")
  else if c.toNat = 8 then ("\\b")
  else if c.toNat = 12 then ("\\f")
  else if c.toNat < 32 then ("\\u00") ++ String.mk [hexDigit (c.toNat / 16), hexDigit (c.toNat % 16)]
  else String.mk [c]

/-- A JSON string literal with `JSON.stringify` escaping. -/
def quoteJson (s : String) : String :=
  ("\"") ++ String.join (s.data.map escapeChar) ++ ("\"")

/-- An indentation run of spaces. -/
def spaces (k : Nat) : String := String.mk (List.replicate k ' ')

mutual

/-- The pretty printer `JSON.stringify(v, null, 2)`: two-space
indentation, `": "` after keys, one element per line, empty containers
rendered inline. -/
def stringifyAux : Nat → JValue → String
  | _, .null => ("null")
  | _, .bool true => ("true")
  | _, .bool false => ("false")
  | _, .num n => intRepr n
  | _, .str s => quoteJson s
  | _, .obj [] => ("\x7b\x7d")
  | ind, .obj (f :: fs) =>
    ("\x7b\n") ++ stringifyFields (ind + 2) (f :: fs) ++ ("\n") ++ spaces ind ++ ("\x7d")
  | _, .arr [] => ("[]")
  | ind, .arr (a :: l) =>
    ("[\n") ++ stringifyItems (ind + 2) (a :: l) ++ ("\n") ++ spaces ind ++ ("]")

/-- Object body lines of `stringifyAux`. -/
def stringifyFields : Nat → List (String × JValue) → String
  | _, [] => ("")
  | ind, [(k, v)] => spaces ind ++ quoteJson k ++ (": ") ++ stringifyAux ind v
  | ind, (k, v) :: f :: fs =>
    spaces ind ++ quoteJson k ++ (": ") ++ stringifyAux ind v ++ (",\n") ++
      stringifyFields ind (f :: fs)

/-- Array body lines of `stringifyAux`. -/
def stringifyItems : Nat → List JValue → String
  | _, [] => ("")
  | ind, [v] => spaces ind ++ stringifyAux ind v
  | ind, v :: w :: l =>
    spaces ind ++ stringifyAux ind v ++ (",\n") ++ stringifyItems ind (w :: l)

end

/-- The serialisation `JSON.stringify(v, null, 2)` used throughout the
component. -/
def stringifyIndent (v : JValue) : String := stringifyAux 0 v

mutual

/-- Comma-joined rendering of array elements (JavaScript
`Array.prototype.toString`). -/
def jsArrayDisplay : List JValue → String
  | [] => ("")
  | [v] => jsElemDisplay v
  | v :: w :: l => jsElemDisplay v ++ (",") ++ jsArrayDisplay (w :: l)

/-- One array element inside a join: `null` renders as the empty string,
every other value renders as `String(v)` does. -/
def jsElemDisplay : JValue → String
  | .null => ("")
  | .str s => s
  | .num n => intRepr n
  | .bool true => ("true")
  | .bool false => ("false")
  | .obj _ => ("[object Object]")
  | .arr l => jsArrayDisplay l

end

/-- Rendering of one path segment inside brackets, from
`jsonPathToString`: a number is rendered bare, a string is wrapped in
double quotes with no internal escaping. -/
def renderSeg : Seg → String
  | .key k => ("\"") ++ k ++ ("\"")
  | .idx n => natRepr n

/-- The path formatter `jsonPathToString`: the empty (or absent) path is
the root marker, otherwise the rendered segments are joined with `"]["`
between `"$["` and `"]"`. -/
def jsonPathToString (path : List Seg) : String :=
  match path with
  | [] => ("$")
  | _ :: _ => ("$[") ++ String.intercalate ("][") (path.map renderSeg) ++ ("]")

/-- One bracket group per segment, concatenated in order with no
separator: the shape the spec describes for the formatter. -/
def bracketChain : List Seg → String
  | [] => ("")
  | s :: rest => ("[") ++ renderSeg s ++ ("]") ++ bracketChain rest

/-- The accessor `getFullNodeValue`, after `JSON.parse` of the document
text: an empty or absent path pretty-prints the whole document; a thrown
access (`TypeError`, or an unparsable document — outside this post-parse
model) is caught and replaced by the literal `"{}"` fallback; a
resolution ending in `undefined` returns `JSON.stringify(undefined)`,
which is `undefined` itself (`none`), not a string. -/
def getFullNodeValue (doc : JValue) (path : List Seg) : Option String :=
  match path with
  | [] => some (stringifyIndent doc)
  | _ :: _ =>
    match walkPath (some doc) path with
    | .error _ => some ("\x7b\x7d")
    | .ok none => none
    | .ok (some v) => some (stringifyIndent v)

/-- The mutator `updateJsonAtPath`, after `JSON.parse`: an empty or
absent path serialises `newValue` itself as the whole new document
(`JSON.stringify(undefined)` being `undefined`, modelled `.ok none`);
otherwise the document is rebuilt with the assignment applied, and any
thrown access or assignment becomes the caught
`Error("Failed to update JSON at path")`. -/
def updateJsonAtPath (doc : JValue) (path : List Seg) (newValue : Option JValue) :
    Except Unit (Option JValue) :=
  match path with
  | [] => .ok newValue
  | _ :: _ => (setPath (some doc) path newValue).map some

/-- The component state touched by the edit flow: the stored document
(the `useFile`/`useJson` stores, modelled post-parse as one source of
truth; `none` is an `undefined` store text), the edit buffer (`none` is
an `undefined` React state), and the editing flag. -/
structure ModalState where
  contents : Option JValue
  editValue : Option String
  isEditing : Bool

/-- The `handleCancel` callback: re-resolve the value at the path from
the current document and repopulate the buffer, leaving the document
untouched; with an `undefined` store text, `JSON.parse` throws inside
`getFullNodeValue` and the buffer receives the `"{}"` fallback. -/
def handleCancel (st : ModalState) (path : List Seg) : ModalState :=
  match st.contents with
  | some doc => { contents := st.contents, editValue := getFullNodeValue doc path, isEditing := false }
  | none => { contents := none, editValue := some ("\x7b\x7d"), isEditing := false }

/-- The `handleSave` callback.  `parsed` is the outcome of the builtin
`JSON.parse(editValue)` (a platform primitive, passed explicitly:
`some v` on success, `none` on a parse failure — including the case of
an `undefined` buffer); on failure the raw buffer text becomes the
candidate value.  The returned flag is `true` for the success toast
(store written, buffer reformatted, editing off) and `false` for the
error toast, where the catch block performs no state writes at all. -/
def handleSave (st : ModalState) (path : List Seg) (parsed : Option JValue) :
    ModalState × Bool :=
  let newValue : Option JValue :=
    match parsed with
    | some v => some v
    | none => st.editValue.map JValue.str
  match st.contents with
  | none => (st, false)
  | some doc =>
    match updateJsonAtPath doc path newValue with
    | .error _ => (st, false)
    | .ok newDoc =>
      ({ contents := newDoc, editValue := newValue.map stringifyIndent, isEditing := false }, true)

/-- A key from the supported segment alphabet of the path formatter:
free of the double quote and bracket characters, which the formatter
does not escape. -/
def supportedKey (k : String) : Bool :=
  k.data.all fun c => !(c == '"') && !(c == '[') && !(c == ']')

/-- A segment from the supported alphabet: any index, or a supported
key. -/
def supportedSeg : Seg → Bool
  | .key k => supportedKey k
  | .idx _ => true

/-- A path over the supported segment alphabet. -/
def supportedPath (p : List Seg) : Bool := p.all supportedSeg

/-! ### Field and element lemmas -/

theorem lookupField_setField_self (fs : List (String × JValue)) (k : String) (v : JValue) :
    lookupField (setField fs k v) k = some v := by
  induction fs with
  | nil => simp [setField, lookupField]
  | cons f rest ih =>
    obtain ⟨k', v'⟩ := f
    by_cases h : k' = k
    · simp [setField, h, lookupField]
    · simp [setField, h, lookupField, ih]

theorem arrSet_get_self (l : List JValue) (n : Nat) (v : JValue) :
    (arrSet l n v).get? n = some v := by
  unfold arrSet
  by_cases h : n < l.length
  · simp only [h, if_true]
    exact List.get?_set_eq_of_lt v h
  · simp only [h, if_false]
    have hlen : (l ++ List.replicate (n - l.length) JValue.null).length = n := by
      simp; omega
    rw [List.get?_append_right (by omega)]
    simp [hlen]

theorem arrSet_get_pad (l : List JValue) (n j : Nat) (v : JValue)
    (h1 : l.length ≤ j) (h2 : j < n) :
    (arrSet l n v).get? j = some JValue.null := by
  have hn : ¬ n < l.length := by omega
  unfold arrSet
  simp only [hn, if_false]
  rw [List.append_assoc, List.get?_append_right h1, List.get?_append (by simp; omega)]
  simp [List.get?_eq_getElem?, List.getElem?_replicate]
  omega

/-! ### Walk lemmas -/

theorem walkPath_append (p q : List Seg) (cur : Option JValue) :
    walkPath cur (p ++ q) =
      match walkPath cur p with
      | .error e => .error e
      | .ok c => walkPath c q := by
  induction p generalizing cur with
  | nil => simp [walkPath]
  | cons s rest ih =>
    simp only [List.cons_append, walkPath]
    cases jsGetStep cur s with
    | error e => rfl
    | ok c => exact ih c

theorem walkPath_noncontainer (q : List Seg) :
    ∀ c : Option JValue, isContainerO c = false →
      walkPath c q = .error () ∨
        ∃ c', walkPath c q = .ok c' ∧ isContainerO c' = false := by
  induction q with
  | nil => exact fun c h => .inr ⟨c, rfl, h⟩
  | cons s rest ih =>
    intro c h
    match c, s with
    | none, s => left; simp [walkPath, jsGetStep]
    | some .null, s => left; simp [walkPath, jsGetStep]
    | some (.bool b), s =>
      have := ih none rfl
      simpa [walkPath, jsGetStep] using this
    | some (.num m), s =>
      have := ih none rfl
      simpa [walkPath, jsGetStep] using this
    | some (.str t), .idx n =>
      have hstep : isContainerO ((t.data.get? n).map fun ch => JValue.str (String.mk [ch])) = false := by
        cases t.data.get? n <;> simp [isContainerO]
      have := ih _ hstep
      simpa [walkPath, jsGetStep] using this
    | some (.str t), .key k =>
      by_cases hk : k = "length"
      · have := ih (some (.num t.length)) rfl
        simpa [walkPath, jsGetStep, hk] using this
      · have hstep : isContainerO ((canonicalNat k).bind fun n =>
            (t.data.get? n).map fun ch => JValue.str (String.mk [ch])) = false := by
          cases hcn : canonicalNat k with
          | none => simp [isContainerO]
          | some n => cases t.data.get? n <;> simp [isContainerO]
        have := ih _ hstep
        simpa [walkPath, jsGetStep, hk] using this
    | some (.obj fs), s => simp [isContainerO] at h
    | some (.arr l), s => simp [isContainerO] at h

theorem jsAssign_noncontainer (c : Option JValue) (last : Seg) (v : Option JValue)
    (h : isContainerO c = false) : jsAssign c last v = .error () := by
  match c with
  | none => rfl
  | some .null => rfl
  | some (.bool _) => rfl
  | some (.num _) => rfl
  | some (.str _) => rfl
  | some (.obj _) => simp [isContainerO] at h
  | some (.arr _) => simp [isContainerO] at h

theorem jsAssign_ok_container (c : Option JValue) (last : Seg) (v : Option JValue)
    (p' : JValue) (h : jsAssign c last v = .ok p') : isContainerO c = true := by
  by_contra hc
  rw [jsAssign_noncontainer c last v (by simpa using hc)] at h
  exact Except.noConfusion h

theorem setPath_cons (cur : Option JValue) (s : Seg) (rest : List Seg) (v : Option JValue)
    (h : rest ≠ []) :
    setPath cur (s :: rest) v =
      match jsGetStep cur s with
      | .error _ => .error ()
      | .ok child =>
        match setPath child rest v with
        | .error _ => .error ()
        | .ok child' => reattach cur s child' := by
  match rest with
  | [] => exact absurd rfl h
  | r :: rs => rfl

theorem setPath_walk (pre : List Seg) :
    ∀ (cur : Option JValue) (parent parent' : JValue) (last : Seg) (v : Option JValue),
      walkPath cur pre = .ok (some parent) →
      jsAssign (some parent) last v = .ok parent' →
      ∃ d' : JValue, setPath cur (pre ++ [last]) v = .ok d' ∧
        walkPath (some d') pre = .ok (some parent') := by
  induction pre with
  | nil =>
    intro cur parent parent' last v hw ha
    simp only [walkPath] at hw
    injection hw with hw
    subst hw
    exact ⟨parent', by simpa [setPath] using ha, by simp [walkPath]⟩
  | cons s rest ih =>
    intro cur parent parent' last v hw ha
    have hpc : isContainerO (some parent) = true := jsAssign_ok_container _ _ _ _ ha
    have hcontra : ∀ c : Option JValue, isContainerO c = false →
        walkPath c rest = .ok (some parent) → False := by
      intro c hc hcw
      rcases walkPath_noncontainer rest c hc with h | ⟨c', hc', hnc⟩
      · rw [hcw] at h; exact Except.noConfusion h
      · rw [hcw] at hc'
        injection hc' with hc'
        rw [← hc'] at hnc
        rw [hnc] at hpc
        exact Bool.noConfusion hpc
    have hcc : isContainerO cur = true := by
      by_contra hc
      have hc' : isContainerO cur = false := by simpa using hc
      rcases walkPath_noncontainer (s :: rest) cur hc' with h | ⟨c', hcw, hnc⟩
      · rw [hw] at h; exact Except.noConfusion h
      · rw [hw] at hcw
        injection hcw with hcw
        rw [← hcw] at hnc
        rw [hnc] at hpc
        exact Bool.noConfusion hpc
    match cur, hcc with
    | some (.obj fs), _ =>
      have hw' : walkPath (lookupField fs (segToKey s)) rest = .ok (some parent) := by
        simpa only [walkPath, jsGetStep] using hw
      obtain ⟨d'', hset, hwalk⟩ := ih _ parent parent' last v hw' ha
      refine ⟨.obj (setField fs (segToKey s) d''), ?_, ?_⟩
      · rw [List.cons_append, setPath_cons _ s (rest ++ [last]) v (by simp)]
        simp only [jsGetStep]
        rw [hset]
        rfl
      · simp only [walkPath, jsGetStep, lookupField_setField_self]
        exact hwalk
    | some (.arr l), _ =>
      match s with
      | .idx n =>
        have hw' : walkPath (l.get? n) rest = .ok (some parent) := by
          simpa only [walkPath, jsGetStep] using hw
        have hlt : n < l.length := by
          cases hg : l.get? n with
          | none =>
            rw [hg] at hw'
            exact absurd hw' (fun hcw => hcontra none rfl hcw)
          | some c =>
            exact (List.get?_eq_some.mp hg).1
        obtain ⟨d'', hset, hwalk⟩ := ih _ parent parent' last v hw' ha
        refine ⟨.arr (l.set n d''), ?_, ?_⟩
        · rw [List.cons_append, setPath_cons _ _ (rest ++ [last]) v (by simp)]
          simp only [jsGetStep]
          rw [hset]
          simp only [reattach]
          rw [if_pos hlt]
        · have hget : (l.set n d'').get? n = some d'' := List.get?_set_eq_of_lt d'' hlt
          simp only [walkPath, jsGetStep]
          rw [hget]
          exact hwalk
      | .key k =>
        by_cases hk : k = "length"
        · exfalso
          have hw' : walkPath (some (.num l.length)) rest = .ok (some parent) := by
            simpa only [walkPath, jsGetStep, hk, if_true, eq_self_iff_true] using hw
          exact hcontra (some (.num l.length)) rfl hw'
        · cases hcn : canonicalNat k with
          | none =>
            exfalso
            have hw' : walkPath none rest = .ok (some parent) := by
              simpa only [walkPath, jsGetStep, if_neg hk, hcn, Option.bind] using hw
            exact hcontra none rfl hw'
          | some n =>
            have hw' : walkPath (l.get? n) rest = .ok (some parent) := by
              simpa only [walkPath, jsGetStep, if_neg hk, hcn, Option.bind] using hw
            have hlt : n < l.length := by
              cases hg : l.get? n with
              | none =>
                rw [hg] at hw'
                exact absurd hw' (fun hcw => hcontra none rfl hcw)
              | some c =>
                exact (List.get?_eq_some.mp hg).1
            obtain ⟨d'', hset, hwalk⟩ := ih _ parent parent' last v hw' ha
            refine ⟨.arr (l.set n d''), ?_, ?_⟩
            · rw [List.cons_append, setPath_cons _ _ (rest ++ [last]) v (by simp)]
              simp only [jsGetStep, if_neg hk, hcn, Option.bind]
              rw [hset]
              simp only [reattach, if_neg hk, hcn]
              rw [if_pos hlt]
            · have hget : (l.set n d'').get? n = some d'' := List.get?_set_eq_of_lt d'' hlt
              simp only [walkPath, jsGetStep, if_neg hk, hcn, Option.bind]
              rw [hget]
              exact hwalk

theorem setPath_error_of_assign_error (pre : List Seg) :
    ∀ (cur : Option JValue) (parent : JValue) (last : Seg) (v : Option JValue),
      walkPath cur pre = .ok (some parent) →
      jsAssign (some parent) last v = .error () →
      setPath cur (pre ++ [last]) v = .error () := by
  induction pre with
  | nil =>
    intro cur parent last v hw ha
    simp only [walkPath] at hw
    injection hw with hw
    subst hw
    simpa [setPath] using ha
  | cons s rest ih =>
    intro cur parent last v hw ha
    rw [List.cons_append, setPath_cons cur s (rest ++ [last]) v (by simp)]
    cases hstep : jsGetStep cur s with
    | error e => rfl
    | ok child =>
      have hw' : walkPath child rest = .ok (some parent) := by
        simpa only [walkPath, hstep] using hw
      simp only [hstep]
      rw [ih child parent last v hw' ha]

theorem updateJsonAtPath_ne_nil (doc : JValue) (p : List Seg) (v : Option JValue)
    (h : p ≠ []) : updateJsonAtPath doc p v = (setPath (some doc) p v).map some := by
  cases p with
  | nil => exact absurd rfl h
  | cons s t => rfl

theorem intercalate_go_acc (sep : String) (l : List String) :
    ∀ a b : String, String.intercalate.go (a ++ b) sep l = a ++ String.intercalate.go b sep l := by
  induction l with
  | nil => intro a b; rfl
  | cons x xs ih =>
    intro a b
    show String.intercalate.go (a ++ b ++ sep ++ x) sep xs =
      a ++ String.intercalate.go (b ++ sep ++ x) sep xs
    rw [String.append_assoc, String.append_assoc, ← String.append_assoc b sep x]
    exact ih a (b ++ sep ++ x)

theorem intercalate_cons2 (sep a b : String) (l : List String) :
    String.intercalate sep (a :: b :: l) = a ++ sep ++ String.intercalate sep (b :: l) := by
  show String.intercalate.go a sep (b :: l) = a ++ sep ++ String.intercalate.go b sep l
  show String.intercalate.go (a ++ sep ++ b) sep l = a ++ sep ++ String.intercalate.go b sep l
  rw [String.append_assoc a sep b, intercalate_go_acc sep l a (sep ++ b)]
  rw [intercalate_go_acc sep l sep b, ← String.append_assoc]

theorem bracketChain_intercalate (rest : List Seg) :
    ∀ s : Seg, ("[") ++ String.intercalate ("][") ((s :: rest).map renderSeg) ++ ("]") =
      bracketChain (s :: rest) := by
  induction rest with
  | nil =>
    intro s
    show ("[") ++ renderSeg s ++ ("]") = ("[") ++ renderSeg s ++ ("]") ++ bracketChain []
    rw [show bracketChain [] = ("") from rfl, String.append_empty]
  | cons t ts ih =>
    intro s
    show ("[") ++ String.intercalate ("][")
        (renderSeg s :: renderSeg t :: ts.map renderSeg) ++ ("]") =
      ("[") ++ renderSeg s ++ ("]") ++ bracketChain (t :: ts)
    rw [intercalate_cons2, ← ih t, show (("][") : String) = ("]") ++ ("[") from rfl]
    simp only [String.append_assoc, List.map_cons]

theorem jsonPathToString_eq_bracketChain (p : List Seg) :
    jsonPathToString p = ("$") ++ bracketChain p := by
  match p with
  | [] => rfl
  | s :: rest =>
    show ("$[") ++ String.intercalate ("][") ((s :: rest).map renderSeg) ++ ("]") =
      ("$") ++ bracketChain (s :: rest)
    rw [← bracketChain_intercalate rest s, show (("$[") : String) = ("$") ++ ("[") from rfl]
    simp only [String.append_assoc]

/-! ### Digit lemmas -/

theorem isDigitChar_dchar (d : Nat) : isDigitChar (dchar d) = true := by
  match d with
  | 0 => rfl
  | 1 => rfl
  | 2 => rfl
  | 3 => rfl
  | 4 => rfl
  | 5 => rfl
  | 6 => rfl
  | 7 => rfl
  | 8 => rfl
  | n + 9 => rfl

theorem dval_dchar (d : Nat) (h : d < 10) : dval (dchar d) = d := by
  interval_cases d <;> rfl

theorem natDigitsAux_acc (fuel : Nat) :
    ∀ n acc, natDigitsAux fuel n acc = natDigitsAux fuel n [] ++ acc := by
  induction fuel with
  | zero => intro n acc; rfl
  | succ f ih =>
    intro n acc
    by_cases h : n < 10
    · simp [natDigitsAux, h]
    · simp only [natDigitsAux, h, if_false]
      rw [ih (n / 10) (dchar (n % 10) :: acc), ih (n / 10) [dchar (n % 10)]]
      simp

theorem natDigitsAux_ne_nil (fuel : Nat) :
    ∀ n acc, natDigitsAux fuel n acc ≠ [] := by
  induction fuel with
  | zero => intro n acc; simp [natDigitsAux]
  | succ f ih =>
    intro n acc
    by_cases h : n < 10
    · simp [natDigitsAux, h]
    · simp only [natDigitsAux, h, if_false]
      exact ih (n / 10) (dchar (n % 10) :: acc)

theorem natDigits_ne_nil (n : Nat) : natDigits n ≠ [] := natDigitsAux_ne_nil n n []

theorem natDigitsAux_all_digits (fuel : Nat) :
    ∀ n acc, (∀ c ∈ acc, isDigitChar c = true) →
      ∀ c ∈ natDigitsAux fuel n acc, isDigitChar c = true := by
  induction fuel with
  | zero =>
    intro n acc hacc c hc
    rcases List.mem_cons.mp hc with h | h
    · subst h; exact isDigitChar_dchar n
    · exact hacc c h
  | succ f ih =>
    intro n acc hacc c hc
    by_cases h : n < 10
    · simp only [natDigitsAux, h, if_true] at hc
      rcases List.mem_cons.mp hc with h' | h'
      · subst h'; exact isDigitChar_dchar n
      · exact hacc c h'
    · simp only [natDigitsAux, h, if_false] at hc
      refine ih (n / 10) (dchar (n % 10) :: acc) ?_ c hc
      intro c' hc'
      rcases List.mem_cons.mp hc' with h' | h'
      · subst h'; exact isDigitChar_dchar (n % 10)
      · exact hacc c' h'

theorem natDigits_all_digits (n : Nat) :
    ∀ c ∈ natDigits n, isDigitChar c = true :=
  natDigitsAux_all_digits n n [] (by intro c hc; cases hc)

theorem charsToNat_append_single (l : List Char) (c : Char) :
    charsToNat (l ++ [c]) = 10 * charsToNat l + dval c := by
  unfold charsToNat
  rw [List.foldl_append]
  rfl

theorem charsToNat_natDigitsAux (fuel : Nat) :
    ∀ n, n ≤ fuel → charsToNat (natDigitsAux fuel n []) = n := by
  induction fuel with
  | zero =>
    intro n hn
    have h0 : n = 0 := Nat.le_zero.mp hn
    subst h0
    show charsToNat [dchar 0] = 0
    rfl
  | succ f ih =>
    intro n hn
    by_cases h : n < 10
    · simp only [natDigitsAux, h, if_true]
      show charsToNat [dchar n] = n
      show 10 * 0 + dval (dchar n) = n
      rw [dval_dchar n h]
      omega
    · simp only [natDigitsAux, h, if_false]
      rw [natDigitsAux_acc f (n / 10) [dchar (n % 10)]]
      rw [charsToNat_append_single]
      rw [ih (n / 10) (by omega)]
      rw [dval_dchar (n % 10) (by omega)]
      omega

theorem charsToNat_natDigits (n : Nat) : charsToNat (natDigits n) = n :=
  charsToNat_natDigitsAux n n (Nat.le_refl n)

theorem natDigits_inj (a b : Nat) (h : natDigits a = natDigits b) : a = b := by
  have := congrArg charsToNat h
  rwa [charsToNat_natDigits, charsToNat_natDigits] at this

/-! ### Injectivity of the formatter over the supported alphabet -/

/-- Character data of one rendered segment. -/
def encSeg (s : Seg) : List Char := (renderSeg s).data

/-- Character data of the bracket-group chain. -/
def encPath : List Seg → List Char
  | [] => []
  | s :: rest => '[' :: encSeg s ++ ']' :: encPath rest

theorem stringData_append (a b : String) : (a ++ b).data = a.data ++ b.data := rfl

theorem bracketChain_data (p : List Seg) : (bracketChain p).data = encPath p := by
  induction p with
  | nil => rfl
  | cons s rest ih =>
    show ((("[") ++ renderSeg s ++ ("]")) ++ bracketChain rest).data = encPath (s :: rest)
    rw [stringData_append, stringData_append, stringData_append, ih]
    show '[' :: (renderSeg s).data ++ [']'] ++ encPath rest = '[' :: encSeg s ++ ']' :: encPath rest
    simp [encSeg]

theorem encSeg_key (k : String) : encSeg (.key k) = '"' :: k.data ++ ['"'] := by
  show ((("\"") ++ k ++ ("\"")).data) = '"' :: k.data ++ ['"']
  rw [stringData_append, stringData_append]
  rfl

theorem encSeg_idx (n : Nat) : encSeg (.idx n) = natDigits n := rfl

theorem encSeg_no_rbracket (s : Seg) (hs : supportedSeg s = true) :
    ']' ∉ encSeg s := by
  match s with
  | .key k =>
    rw [encSeg_key]
    intro hmem
    rcases List.mem_cons.mp hmem with h | h
    · exact absurd h (by decide)
    · rcases List.mem_append.mp h with h' | h'
      · have hk : supportedKey k = true := hs
        have hall := List.all_eq_true.mp hk _ h'
        simp only [Bool.and_eq_true] at hall
        exact absurd hall.2 (by decide)
      · exact absurd (List.mem_singleton.mp h') (by decide)
  | .idx n =>
    rw [encSeg_idx]
    intro hmem
    have := natDigits_all_digits n _ hmem
    simp [isDigitChar] at this
  
theorem encSeg_inj (s1 s2 : Seg) (h1 : supportedSeg s1 = true)
    (h2 : supportedSeg s2 = true) (h : encSeg s1 = encSeg s2) : s1 = s2 := by
  match s1, s2 with
  | .key k1, .key k2 =>
    rw [encSeg_key, encSeg_key] at h
    injection h with _ h
    have hdata : k1.data = k2.data := List.append_cancel_right h
    rw [String.ext hdata]
  | .key k1, .idx n2 =>
    exfalso
    rw [encSeg_key, encSeg_idx] at h
    have hmem : '"' ∈ natDigits n2 := by
      rw [← h]; exact List.mem_cons_self _ _
    have := natDigits_all_digits n2 _ hmem
    simp [isDigitChar] at this
  | .idx n1, .key k2 =>
    exfalso
    rw [encSeg_key, encSeg_idx] at h
    have hmem : '"' ∈ natDigits n1 := by
      rw [h]; exact List.mem_cons_self _ _
    have := natDigits_all_digits n1 _ hmem
    simp [isDigitChar] at this
  | .idx n1, .idx n2 =>
    rw [encSeg_idx, encSeg_idx] at h
    rw [natDigits_inj n1 n2 h]

theorem frame_lemma (a : List Char) :
    ∀ b r1 r2, ']' ∉ a → ']' ∉ b → a ++ ']' :: r1 = b ++ ']' :: r2 →
      a = b ∧ r1 = r2 := by
  induction a with
  | nil =>
    intro b r1 r2 _ hb h
    match b with
    | [] =>
      refine ⟨rfl, ?_⟩
      injection h
    | c :: b' =>
      exfalso
      injection h with h1 _
      exact hb (h1 ▸ List.mem_cons_self c b')
  | cons c a' ih =>
    intro b r1 r2 ha hb h
    match b with
    | [] =>
      exfalso
      injection h with h1 _
      exact ha (h1 ▸ List.mem_cons_self c a')
    | d :: b' =>
      injection h with h1 h2
      have ha' : ']' ∉ a' := fun hm => ha (List.mem_cons_of_mem c hm)
      have hb' : ']' ∉ b' := fun hm => hb (List.mem_cons_of_mem d hm)
      obtain ⟨hab, hr⟩ := ih b' r1 r2 ha' hb' h2
      exact ⟨by rw [h1, hab], hr⟩

theorem encPath_inj (p1 : List Seg) :
    ∀ p2, supportedPath p1 = true → supportedPath p2 = true →
      encPath p1 = encPath p2 → p1 = p2 := by
  induction p1 with
  | nil =>
    intro p2 _ _ h
    match p2 with
    | [] => rfl
    | s :: rest => exact List.noConfusion h
  | cons s1 rest1 ih =>
    intro p2 hs1 hs2 h
    match p2 with
    | [] => exact List.noConfusion h
    | s2 :: rest2 =>
      have hsup1 : supportedSeg s1 = true ∧ supportedPath rest1 = true := by
        simpa [supportedPath] using hs1
      have hsup2 : supportedSeg s2 = true ∧ supportedPath rest2 = true := by
        simpa [supportedPath] using hs2
      simp only [encPath] at h
      injection h with _ h'
      obtain ⟨he, hr⟩ := frame_lemma (encSeg s1) (encSeg s2) (encPath rest1) (encPath rest2)
        (encSeg_no_rbracket s1 hsup1.1) (encSeg_no_rbracket s2 hsup2.1) h'
      rw [encSeg_inj s1 s2 hsup1.1 hsup2.1 he, ih rest2 hsup1.2 hsup2.2 hr]

/-! ### Preview-object lemmas -/

theorem specResolve_walkPath (P : List Seg) :
    ∀ D v, specResolve D P = some v → walkPath (some D) P = .ok (some v) := by
  induction P with
  | nil =>
    intro D v h
    simp only [specResolve] at h
    injection h with h
    rw [walkPath, h]
  | cons s rest ih =>
    intro D v h
    match D, s with
    | .obj fs, .key k =>
      simp only [specResolve] at h
      cases hl : lookupField fs k with
      | none => rw [hl] at h; exact Option.noConfusion h
      | some w =>
        rw [hl] at h
        have hw := ih w v h
        show walkPath (some (.obj fs)) (.key k :: rest) = .ok (some v)
        simp only [walkPath, jsGetStep, segToKey]
        rw [hl]
        exact hw
    | .arr l, .idx n =>
      simp only [specResolve] at h
      cases hl : l.get? n with
      | none => rw [hl] at h; exact Option.noConfusion h
      | some w =>
        rw [hl] at h
        have hw := ih w v h
        simp only [walkPath, jsGetStep]
        rw [hl]
        exact hw
    | .obj fs, .idx n => simp only [specResolve] at h; exact Option.noConfusion h
    | .arr l, .key k => simp only [specResolve] at h; exact Option.noConfusion h
    | .null, _ => simp only [specResolve] at h; exact Option.noConfusion h
    | .bool b, _ => simp only [specResolve] at h; exact Option.noConfusion h
    | .num m, _ => simp only [specResolve] at h; exact Option.noConfusion h
    | .str t, _ => simp only [specResolve] at h; exact Option.noConfusion h

theorem getFullNodeValue_of_walk (D : JValue) (P : List Seg) (v : JValue)
    (h : walkPath (some D) P = .ok (some v)) :
    getFullNodeValue D P = some (stringifyIndent v) := by
  match P with
  | [] =>
    simp only [walkPath] at h
    injection h with h
    injection h with h
    rw [getFullNodeValue, h]
  | s :: rest =>
    show (match walkPath (some D) (s :: rest) with
      | .error _ => some (("\x7b\x7d"))
      | .ok none => none
      | .ok (some w) => some (stringifyIndent w)) = some (stringifyIndent v)
    rw [h]

/-! ### Claim theorems -/

/-- Claim C1, counterexample.  The claim states that resolution succeeds
only when each step is an object node with a present string key or an
array node with a valid index, and reports `NotFound` in every other
case, including a string node.  In the code, indexing the string document
`"ab"` with `1` succeeds and produces the character `"b"`, although the
spec's resolution reports `NotFound` there. -/
theorem c1_resolve_string_index_cex :
    walkPath (some (.str ("ab"))) [.idx 1] = .ok (some (.str ("b"))) ∧
      specResolve (.str ("ab")) [.idx 1] = none :=
  ⟨rfl, rfl⟩

/-- Claim C1, amended.  The spec's resolution contract is sound for the
code: whenever every step descends through an object node via a present
string key or an array node via a valid index (`specResolve` succeeds),
the code's navigation produces exactly that value and the accessor
displays its pretty-printed form.  The converse direction of the claim
fails (see the counterexample): the code also produces values for string
nodes and coerced numeric keys, and an absent final key yields
`undefined` rather than the `NotFound` fallback. -/
theorem c1_spec_resolution_sound (D : JValue) (P : List Seg) (v : JValue)
    (h : specResolve D P = some v) :
    walkPath (some D) P = .ok (some v) ∧
      getFullNodeValue D P = some (stringifyIndent v) := by
  have hw := specResolve_walkPath P D v h
  exact ⟨hw, getFullNodeValue_of_walk D P v hw⟩

/-- Witness for Claim C1's theorem at a concrete document and path. -/
theorem c1_spec_resolution_sound_witness :
    specResolve (.obj [(("a"), .num 1)]) [.key ("a")] = some (.num 1) ∧
      (walkPath (some (.obj [(("a"), .num 1)])) [.key ("a")] = .ok (some (.num 1)) ∧
        getFullNodeValue (.obj [(("a"), .num 1)]) [.key ("a")] = some (("1"))) :=
  ⟨rfl, c1_spec_resolution_sound (.obj [(("a"), .num 1)]) [.key ("a")] (.num 1) rfl⟩

/-- Claim C2, counterexample.  The claim demands `InvalidPath` with the
document unchanged whenever some intermediate segment does not resolve
to a container.  With document `{"1":{"x":0}}` and path `[1, "x"]`, the
intermediate integer segment `1` does not resolve at all under the
spec's contract (objects are indexed by string keys), yet the save
coerces `1` to the key `"1"`, succeeds, changes the document, and
reports success. -/
theorem c2_coerced_intermediate_cex :
    specResolve (.obj [(("1"), .obj [(("x"), .num 0)])]) [.idx 1] = none ∧
      updateJsonAtPath (.obj [(("1"), .obj [(("x"), .num 0)])]) [.idx 1, .key ("x")]
        (some (.num 5)) = .ok (some (.obj [(("1"), .obj [(("x"), .num 5)])])) ∧
      handleSave ⟨some (.obj [(("1"), .obj [(("x"), .num 0)])]), some ("5"), true⟩
        [.idx 1, .key ("x")] (some (.num 5)) =
        (⟨some (.obj [(("1"), .obj [(("x"), .num 5)])]), some ("5"), false⟩, true) :=
  ⟨rfl, rfl, rfl⟩

/-- Claim C2, amended.  If the navigation over all but the last segment
steps only through defined values — each access yields an actual JSON
value, so no prototype-chain member is ever surfaced and the model is
exact — and arrives at a parent that is not an object or array (`null`
or a primitive), then, excluding the one standard inherited setter (a
primitive parent with a final segment coercing to the key `__proto__`,
which silently no-ops), the strict-mode assignment throws and the save
fails for every candidate value: `updateJsonAtPath` reports its caught
error, no intermediate node is created, the store receives no write,
and the edit buffer and editing flag are left exactly as they were. -/
theorem c2_primitive_parent_save_fails (D parent : JValue) (pre : List Seg) (last : Seg)
    (hw : walkPath (some D) pre = .ok (some parent))
    (hnc : isContainerO (some parent) = false)
    (_hns : parent = .null ∨ segToKey last ≠ ("__proto__")) :
    (∀ V, updateJsonAtPath D (pre ++ [last]) V = .error ()) ∧
      ∀ (st : ModalState) (parsed : Option JValue), st.contents = some D →
        handleSave st (pre ++ [last]) parsed = (st, false) := by
  have hupd : ∀ V, updateJsonAtPath D (pre ++ [last]) V = .error () := by
    intro V
    rw [updateJsonAtPath_ne_nil D _ V (by simp)]
    rw [setPath_error_of_assign_error pre (some D) parent last V hw
      (jsAssign_noncontainer (some parent) last V hnc)]
    rfl
  refine ⟨hupd, ?_⟩
  intro st parsed hc
  obtain ⟨cs, b, e⟩ := st
  simp only at hc
  subst hc
  cases parsed with
  | some v =>
    show (match updateJsonAtPath D (pre ++ [last]) (some v) with
      | .error _ => ((⟨some D, b, e⟩ : ModalState), false)
      | .ok newDoc =>
        ((⟨newDoc, (some v).map stringifyIndent, false⟩ : ModalState), true)) =
      ((⟨some D, b, e⟩ : ModalState), false)
    rw [hupd (some v)]
  | none =>
    show (match updateJsonAtPath D (pre ++ [last]) (b.map JValue.str) with
      | .error _ => ((⟨some D, b, e⟩ : ModalState), false)
      | .ok newDoc =>
        ((⟨newDoc, (b.map JValue.str).map stringifyIndent, false⟩ : ModalState), true)) =
      ((⟨some D, b, e⟩ : ModalState), false)
    rw [hupd (b.map JValue.str)]

/-- Witness for Claim C2's theorem: document `{"a":null}`, whose
navigation yields the value `null` at its only intermediate step, so
the parent is not a container and the final assignment throws. -/
theorem c2_primitive_parent_save_fails_witness :
    updateJsonAtPath (.obj [(("a"), .null)]) [.key ("a"), .key ("b")] (some (.num 1)) =
        .error () ∧
      handleSave ⟨some (.obj [(("a"), .null)]), some ("x"), true⟩
        [.key ("a"), .key ("b")] none =
        (⟨some (.obj [(("a"), .null)]), some ("x"), true⟩, false) := by
  have h := c2_primitive_parent_save_fails (.obj [(("a"), .null)]) .null [.key ("a")]
    (.key ("b")) rfl rfl (Or.inl rfl)
  exact ⟨h.1 (some (.num 1)), h.2 ⟨some (.obj [(("a"), .null)]), some ("x"), true⟩ none rfl⟩

/-- Claim C4, counterexample.  The claim states that every failing
resolution, including a final segment merely absent from its parent,
displays the empty-object rendering.  With document `{"a":1}` and path
`["missing"]`, resolution fails, but the access yields `undefined`
without throwing, so `JSON.stringify(undefined, null, 2)` — which is
`undefined`, not a string — is returned instead of the `"{}"`
fallback. -/
theorem c4_missing_key_display_cex :
    specResolve (.obj [(("a"), .num 1)]) [.key ("missing")] = none ∧
      getFullNodeValue (.obj [(("a"), .num 1)]) [.key ("missing")] = none ∧
      getFullNodeValue (.obj [(("a"), .num 1)]) [.key ("missing")] ≠ some (("\x7b\x7d")) :=
  ⟨rfl, rfl, fun h => Option.noConfusion h⟩

/-- Helper: a navigation that throws surfaces the caught fallback
literal. -/
theorem getFullNodeValue_error_fallback (D : JValue) (P : List Seg) (hne : P ≠ [])
    (h : walkPath (some D) P = .error ()) :
    getFullNodeValue D P = some (("\x7b\x7d")) := by
  match P with
  | [] => exact absurd rfl hne
  | s :: rest =>
    show (match walkPath (some D) (s :: rest) with
      | .error _ => some (("\x7b\x7d"))
      | .ok none => none
      | .ok (some w) => some (stringifyIndent w)) = some (("\x7b\x7d"))
    rw [h]

/-- Helper: a navigation ending in `undefined` displays
`JSON.stringify(undefined)`, which is `undefined` itself. -/
theorem getFullNodeValue_undefined (D : JValue) (P : List Seg) (hne : P ≠ [])
    (h : walkPath (some D) P = .ok none) :
    getFullNodeValue D P = none := by
  match P with
  | [] => exact absurd rfl hne
  | s :: rest =>
    show (match walkPath (some D) (s :: rest) with
      | .error _ => some (("\x7b\x7d"))
      | .ok none => none
      | .ok (some w) => some (stringifyIndent w)) = none
    rw [h]

/-- Claim C4, amended.  The `"{}"` fallback is displayed whenever the
navigation, having stepped only through defined values (where the model
is exact), reads a property of a `null` sub-value with at least one
segment remaining — such a read throws unconditionally (in the
untranslated text layer, an unparsable document reaches the same catch).
A failing path need not produce the fallback: an out-of-range index into
an array reads back `undefined` and the display value is
`JSON.stringify(undefined)` — `undefined`, not a string — and an absent
final object key behaves likewise (the counterexample). -/
theorem c4_fallback_scope :
    (∀ (D : JValue) (pre : List Seg) (s : Seg) (rest : List Seg),
      walkPath (some D) pre = .ok (some .null) →
      getFullNodeValue D (pre ++ s :: rest) = some (("\x7b\x7d"))) ∧
      (∀ (D : JValue) (pre : List Seg) (l : List JValue) (n : Nat),
        walkPath (some D) pre = .ok (some (.arr l)) → l.length ≤ n →
        getFullNodeValue D (pre ++ [.idx n]) = none) := by
  constructor
  · intro D pre s rest hw
    refine getFullNodeValue_error_fallback D _ (by simp) ?_
    rw [walkPath_append, hw]
    show walkPath (some JValue.null) (s :: rest) = .error ()
    cases s <;> rfl
  · intro D pre l n hw hlen
    refine getFullNodeValue_undefined D _ (by simp) ?_
    rw [walkPath_append, hw]
    show walkPath (some (.arr l)) [.idx n] = .ok none
    simp only [walkPath, jsGetStep]
    rw [List.get?_len_le hlen]

/-- Witness for Claim C4's theorem: in `{"a":null}` the walk of
`["a","b"]` reads a property of `null` and displays the fallback; in
`[1]` the out-of-range index `5` displays `undefined`. -/
theorem c4_fallback_scope_witness :
    (walkPath (some (.obj [(("a"), .null)])) [.key ("a")] = .ok (some .null) ∧
      getFullNodeValue (.obj [(("a"), .null)]) [.key ("a"), .key ("b")] =
        some (("\x7b\x7d"))) ∧
      (walkPath (some (.arr [.num 1])) [] = .ok (some (.arr [.num 1])) ∧
        getFullNodeValue (.arr [.num 1]) [.idx 5] = none) :=
  ⟨⟨rfl, c4_fallback_scope.1 (.obj [(("a"), .null)]) [.key ("a")] (.key ("b")) [] rfl⟩,
    ⟨rfl, c4_fallback_scope.2 (.arr [.num 1]) [] [.num 1] 5 rfl (by decide)⟩⟩

/-- Claim C6, confirmed.  The formatter renders the empty path as the
bare root marker and a non-empty path as the root marker followed by one
bracket group per segment in order with no separator: a string segment
as the double-quoted `["segment"]`, an integer segment as the unquoted
`[N]`; in particular the path `("customer", "orders", 1)` formats as
`$["customer"]["orders"][1]`. -/
theorem c6_format_shape :
    (∀ p : List Seg, jsonPathToString p = ("$") ++ bracketChain p) ∧
      (∀ (k : String) (rest : List Seg),
        bracketChain (.key k :: rest) = ("[\"") ++ k ++ ("\"]") ++ bracketChain rest) ∧
      (∀ (n : Nat) (rest : List Seg),
        bracketChain (.idx n :: rest) = ("[") ++ natRepr n ++ ("]") ++ bracketChain rest) ∧
      jsonPathToString [] = ("$") ∧
      jsonPathToString [.key ("customer"), .key ("orders"), .idx 1] =
        ("$[\"customer\"][\"orders\"][1]") := by
  refine ⟨jsonPathToString_eq_bracketChain, ?_, ?_, rfl, rfl⟩
  · intro k rest
    show ("[") ++ (("\"") ++ k ++ ("\"")) ++ ("]") ++ bracketChain rest =
      ("[\"") ++ k ++ ("\"]") ++ bracketChain rest
    rw [show (("[\"") : String) = ("[") ++ ("\"") from rfl,
      show (("\"]") : String) = ("\"") ++ ("]") from rfl]
    simp only [String.append_assoc]
  · intro n rest
    rfl

/-- Claim C7, confirmed.  Over the supported segment alphabet — keys
free of the double quote and bracket characters, which the formatter
leaves unescaped — the formatter is injective: distinct paths format to
distinct strings.  Determinism is immediate since the formatter is a
pure function. -/
theorem c7_format_injective (p1 p2 : List Seg)
    (h1 : supportedPath p1 = true) (h2 : supportedPath p2 = true)
    (h : jsonPathToString p1 = jsonPathToString p2) : p1 = p2 := by
  have hd := congrArg String.data h
  rw [jsonPathToString_eq_bracketChain, jsonPathToString_eq_bracketChain,
    stringData_append, stringData_append, bracketChain_data, bracketChain_data] at hd
  have henc : encPath p1 = encPath p2 := by
    simpa using hd
  exact encPath_inj p1 p2 h1 h2 henc

/-- Witness for Claim C7's theorem at concrete supported paths. -/
theorem c7_format_injective_witness :
    supportedPath [Seg.key ("customer"), Seg.idx 1] = true ∧
      ([Seg.key ("customer"), Seg.idx 1] : List Seg) = [Seg.key ("customer"), Seg.idx 1] :=
  ⟨rfl, c7_format_injective [Seg.key ("customer"), Seg.idx 1]
    [Seg.key ("customer"), Seg.idx 1] rfl rfl rfl⟩

/-- Claim C8, confirmed.  Canceling an edit ignores whatever text and
editing flag the state held: the buffer is repopulated with the value
freshly resolved at the path from the current document (so a document
changed after entering edit mode is re-read), editing mode is left, and
the document itself is untouched; with an `undefined` store text the
re-resolve throws inside the accessor and the buffer receives the
fallback literal. -/
theorem c8_cancel_restores (D : JValue) (b : Option String) (e : Bool) (p : List Seg) :
    handleCancel ⟨some D, b, e⟩ p = ⟨some D, getFullNodeValue D p, false⟩ ∧
      handleCancel ⟨none, b, e⟩ p = ⟨none, some (("\x7b\x7d")), false⟩ :=
  ⟨rfl, rfl⟩

/-- Claim C10, confirmed.  When the walk over the intermediate segments
reaches an array parent and the final segment is an index at or beyond
the array's length, the save succeeds (no error): the array is extended
so that the index holds the new value, every skipped position reads back
as `null` (holes serialise as `null`), and the array's length becomes
the index plus one. -/
theorem c10_array_extension (D V : JValue) (pre : List Seg) (l : List JValue) (n : Nat)
    (hw : walkPath (some D) pre = .ok (some (.arr l)))
    (hn : l.length ≤ n) :
    ∃ D', updateJsonAtPath D (pre ++ [.idx n]) (some V) = .ok (some D') ∧
      walkPath (some D') (pre ++ [.idx n]) = .ok (some V) ∧
      (∀ j, l.length ≤ j → j < n →
        walkPath (some D') (pre ++ [.idx j]) = .ok (some .null)) ∧
      walkPath (some D') (pre ++ [.key ("length")]) =
        .ok (some (.num ((n : Int) + 1))) := by
  have ha : jsAssign (some (.arr l)) (.idx n) (some V) = .ok (.arr (arrSet l n V)) := rfl
  obtain ⟨D', hset, hwalk⟩ :=
    setPath_walk pre (some D) (.arr l) (.arr (arrSet l n V)) (.idx n) (some V) hw ha
  have hlen : (arrSet l n V).length = n + 1 := by
    unfold arrSet
    by_cases h : n < l.length
    · omega
    · simp only [h, if_false]
      simp
      omega
  refine ⟨D', ?_, ?_, ?_, ?_⟩
  · rw [updateJsonAtPath_ne_nil D _ _ (by simp), hset]
    rfl
  · rw [walkPath_append, hwalk]
    show walkPath (some (.arr (arrSet l n V))) [.idx n] = .ok (some V)
    simp only [walkPath, jsGetStep]
    rw [arrSet_get_self]
  · intro j hj1 hj2
    rw [walkPath_append, hwalk]
    show walkPath (some (.arr (arrSet l n V))) [.idx j] = .ok (some .null)
    simp only [walkPath, jsGetStep]
    rw [arrSet_get_pad l n j V hj1 hj2]
  · rw [walkPath_append, hwalk]
    show walkPath (some (.arr (arrSet l n V))) [.key ("length")] = .ok (some (.num ((n : Int) + 1)))
    simp only [walkPath, jsGetStep, if_pos rfl]
    rw [hlen]
    norm_num

/-- Witness for Claim C10's theorem: writing `7` at index `3` of `[1]`
produces `[1,null,null,7]`. -/
theorem c10_array_extension_witness :
    walkPath (some (.arr [.num 1])) [] = .ok (some (.arr [.num 1])) ∧
      ([JValue.num 1].length ≤ 3) ∧
      ∃ D', updateJsonAtPath (.arr [.num 1]) [.idx 3] (some (.num 7)) = .ok (some D') ∧
        walkPath (some D') [.idx 3] = .ok (some (.num 7)) ∧
        (∀ j, [JValue.num 1].length ≤ j → j < 3 →
          walkPath (some D') [.idx j] = .ok (some .null)) ∧
        walkPath (some D') [.key ("length")] = .ok (some (.num ((3 : Int) + 1))) :=
  ⟨rfl, by decide,
    c10_array_extension (.arr [.num 1]) (.num 7) [] [.num 1] 3 rfl (by decide)⟩
